import Mathlib

/-!
# Verification of the gomavlib dialect message codec and byte helpers

This file embeds, in Lean 4, the parts of the gomavlib repository that the
frozen claims are about:

* `uint24Decode` / `uint24Encode` / `uint48Decode` / `uint48Encode` are
  translated directly from `various.go`.  The Go functions index into a byte
  slice; out-of-range indexing is modelled by `Option` (a `none` result marks
  the panicking branch).

* The dialect message codec (schema builder, extra-CRC computation, payload
  encoder and decoder) is not part of the provided source files — only its
  test suite is.  It is therefore modelled from the specification
  (`spec.md`): those definitions carry a doc comment starting with
  `Modelled from the spec:` and follow the spec's algorithm descriptions,
  disambiguated where necessary by the pinned test vectors of the test suite
  (which *is* part of the provided source).

Structured values are modelled as lists of field values in declaration
order; a field value is a list of natural numbers, one per array element
(the element's little-endian bit pattern; floats travel as their IEEE-754
bit patterns, which is exactly what the codec transports).  Strings are
char arrays whose value is the list of character bytes.
-/

namespace Gomavlib

/-! ## Primitive wire types -/

/-- Modelled from the spec: the closed enumeration of primitive wire types
(§3): `U8, I8, U16, I16, U32, I32, U64, I64, U24, U48, F32, F64, Char`. -/
inductive WireType where
  | u8 | i8 | u16 | i16 | u32 | i32 | u64 | i64 | u24 | u48 | f32 | f64 | char
deriving DecidableEq, Repr

/-- Modelled from the spec: fixed wire width in bytes of each primitive
type (§3): 1,1,2,2,4,4,8,8,3,6,4,8,1. -/
def WireType.width : WireType → Nat
  | .u8 => 1
  | .i8 => 1
  | .u16 => 2
  | .i16 => 2
  | .u32 => 4
  | .i32 => 4
  | .u64 => 8
  | .i64 => 8
  | .u24 => 3
  | .u48 => 6
  | .f32 => 4
  | .f64 => 8
  | .char => 1

/-! ## Field and message descriptors -/

/-- Modelled from the spec: a field descriptor (§3): logical name, optional
explicit wire-name override, wire type, array length (0 for a scalar;
strings are `char` arrays of the declared length), extension flag. -/
structure FieldDef where
  fname : String
  nameOverride : Option String
  typ : WireType
  arrayLen : Nat
  isExt : Bool
deriving DecidableEq, Repr

/-- Modelled from the spec: a message descriptor: logical (Go struct) name,
message id, declared field list in declaration order. -/
structure MessageDef where
  mname : String
  mid : Nat
  fields : List FieldDef

/-- A field is a string exactly when it is a `char` array. -/
def isStr (f : FieldDef) : Bool := f.typ = WireType.char && f.arrayLen != 0

/-- Per-field wire size: width times array-length-or-1. -/
def fieldWireSize (f : FieldDef) : Nat := f.typ.width * max f.arrayLen 1

/-! ## Declaration-order indexing -/

/-- Pair each field with its declaration index, starting at `n`. -/
def withIdxFrom : Nat → List FieldDef → List (Nat × FieldDef)
  | _, [] => []
  | n, f :: l => (n, f) :: withIdxFrom (n + 1) l

/-- Pair each field with its declaration index. -/
def withIdx (l : List FieldDef) : List (Nat × FieldDef) := withIdxFrom 0 l

/-! ## Wire field order -/

/-- The indexed fields of a message whose width is `w`, in declaration
order. -/
def widthFilter (l : List (Nat × FieldDef)) (w : Nat) : List (Nat × FieldDef) :=
  l.filter (fun p => p.2.typ.width = w)

/-- The non-extension fields of a message, indexed, in declaration order. -/
def nonExtIdx (m : MessageDef) : List (Nat × FieldDef) :=
  (withIdx m.fields).filter (fun p => !p.2.isExt)

/-- Modelled from the spec: the sorted non-extension wire field list (§4.2
step 4): stable sort of the non-extension fields by per-element wire width
descending.  Since every width lies in {8,6,4,3,2,1}, the stable descending
sort is the concatenation of the per-width blocks in that order. -/
def nonExtWire (m : MessageDef) : List (Nat × FieldDef) :=
  widthFilter (nonExtIdx m) 8 ++ widthFilter (nonExtIdx m) 6 ++
  widthFilter (nonExtIdx m) 4 ++ widthFilter (nonExtIdx m) 3 ++
  widthFilter (nonExtIdx m) 2 ++ widthFilter (nonExtIdx m) 1

/-- The extension fields of a message, indexed, in declaration order. -/
def extWire (m : MessageDef) : List (Nat × FieldDef) :=
  (withIdx m.fields).filter (fun p => p.2.isExt)

/-- Modelled from the spec: the complete wire field list (§4.2 step 5):
sorted non-extensions followed by the extensions in declaration order. -/
def wireFields (m : MessageDef) : List (Nat × FieldDef) :=
  nonExtWire m ++ extWire m

/-- Sum of the wire sizes of a list of indexed fields. -/
def sumSizes (wl : List (Nat × FieldDef)) : Nat :=
  (wl.map (fun p => fieldWireSize p.2)).sum

/-- Modelled from the spec: the non-extension payload size (§3). -/
def sizeNormal (m : MessageDef) : Nat := sumSizes (nonExtWire m)

/-- Modelled from the spec: the total payload size including extensions
(§3). -/
def sizeTotal (m : MessageDef) : Nat := sumSizes (wireFields m)

/-! ## Little-endian primitive codec -/

/-- Little-endian encoding of a natural number into `w` bytes
(least-significant byte first). -/
def natLE : Nat → Nat → List Nat
  | 0, _ => []
  | w + 1, x => x % 256 :: natLE w (x / 256)

/-- Little-endian decoding of a byte list. -/
def leDecode : List Nat → Nat
  | [] => 0
  | b :: l => b + 256 * leDecode l

/-! ## Field encode / decode -/

/-- Modelled from the spec: encode one field of a structured value (§4.4
step 2): a string is truncated to the declared length and zero-padded; a
scalar or numeric array writes each element as `width` little-endian
bytes. -/
def encodeField (f : FieldDef) (v : List Nat) : List Nat :=
  if isStr f then v.take f.arrayLen ++ List.replicate (f.arrayLen - v.length) 0
  else (v.map (natLE f.typ.width)).flatten

/-- Decode `n` elements of width `w` from a byte list. -/
def decodeElems (w : Nat) : Nat → List Nat → List Nat
  | 0, _ => []
  | n + 1, bs => leDecode (bs.take w) :: decodeElems w n (bs.drop w)

/-- Modelled from the spec: decode one field from (a prefix of) a byte
list (§4.5 step 4): a string is a fixed-length byte run trimmed at the
first zero byte; a scalar or numeric array reads each element as `width`
little-endian bytes. -/
def decodeField (f : FieldDef) (bs : List Nat) : List Nat :=
  if isStr f then (bs.take f.arrayLen).takeWhile (fun b => b ≠ 0)
  else decodeElems f.typ.width (max f.arrayLen 1) bs

/-- Modelled from the spec: the zero/default value of each field (§4.5
step 3): the empty string for strings, zero for every numeric element. -/
def defaultValue (f : FieldDef) : List Nat :=
  if isStr f then [] else List.replicate (max f.arrayLen 1) 0

/-! ## Payload encode -/

/-- Concatenated encodings of a list of indexed fields read from a
structured value. -/
def encWire (wl : List (Nat × FieldDef)) (v : List (List Nat)) : List Nat :=
  (wl.map (fun p => encodeField p.2 (v.getD p.1 []))).flatten

/-- The full payload buffer: every field, extensions included, in wire
order. -/
def fullEncode (m : MessageDef) (v : List (List Nat)) : List Nat :=
  encWire (wireFields m) v

/-- Modelled from the spec: v2 trailing-zero truncation (§4.4 step 3):
strip trailing zero bytes, but never shorten below 1 byte. -/
def stripTZ (l : List Nat) : List Nat :=
  let r := (l.reverse.dropWhile (fun b => b == 0)).reverse
  if r.isEmpty then l.take 1 else r

/-- Modelled from the spec: the payload encoder (§4.4): fill the full
buffer in wire order; for v1 truncate to the non-extension payload size,
for v2 apply trailing-zero truncation. -/
def encodePayload (m : MessageDef) (v : List (List Nat)) (isV2 : Bool) : List Nat :=
  if isV2 then stripTZ (fullEncode m v) else (fullEncode m v).take (sizeNormal m)

/-! ## Payload decode -/

/-- Modelled from the spec: decode failure modes (§7): `PayloadTooLong`,
`EmptyPayload`, and the lazily surfaced schema-builder failure
`UnsupportedField`. -/
inductive DecodeError where
  | payloadTooLong
  | emptyPayload
  | unsupportedField
deriving DecidableEq, Repr

instance {ε α : Type} [DecidableEq ε] [DecidableEq α] : DecidableEq (Except ε α) := fun a b =>
  match a, b with
  | .ok x, .ok y =>
      if h : x = y then isTrue (by rw [h]) else isFalse (fun hh => by cases hh; exact h rfl)
  | .error x, .error y =>
      if h : x = y then isTrue (by rw [h]) else isFalse (fun hh => by cases hh; exact h rfl)
  | .ok _, .error _ => isFalse (fun hh => by cases hh)
  | .error _, .ok _ => isFalse (fun hh => by cases hh)

/-- Walk a wire field list over a byte buffer, assigning each decoded field
value to its declaration index. -/
def decodeFieldsLoop : List (Nat × FieldDef) → List Nat → List (List Nat) → List (List Nat)
  | [], _, acc => acc
  | p :: rest, bs, acc =>
      decodeFieldsLoop rest (bs.drop (fieldWireSize p.2)) (acc.set p.1 (decodeField p.2 bs))

/-- Modelled from the spec: the payload decoder (§4.5, §7): an empty input
fails with `EmptyPayload`; an input longer than the expected size (total
for v2, non-extension for v1) fails with `PayloadTooLong`; a shorter input
is right-padded with zero bytes; v1 decodes only the non-extension fields,
leaving extensions at their defaults. -/
def decodePayload (m : MessageDef) (payload : List Nat) (isV2 : Bool) :
    Except DecodeError (List (List Nat)) :=
  if payload.length = 0 then .error .emptyPayload
  else
    let expected := if isV2 then sizeTotal m else sizeNormal m
    if expected < payload.length then .error .payloadTooLong
    else
      let padded := payload ++ List.replicate (expected - payload.length) 0
      let wl := if isV2 then wireFields m else nonExtWire m
      .ok (decodeFieldsLoop wl padded (m.fields.map defaultValue))

/-! ## Canonical wire names and the extra CRC -/

/-- Snake-case one character: an upper-case letter becomes an underscore
followed by its lower-case form. -/
def snakeChar (c : Char) : List Char :=
  if c.isUpper then ['_', c.toLower] else [c]

/-- Modelled from the spec: the default snake-case derivation of a wire
name from a CamelCase logical name (§3): the leading character is
lowercased, every further upper-case letter is split off with an
underscore and lowercased (digits stay attached to the preceding run,
which is what the pinned extra-CRC test bytes require, e.g.
`ErrorsCount1` becomes `errors_count1`). -/
def snakeCase (s : String) : String :=
  match s.data with
  | [] => ""
  | c :: rest => String.mk (c.toLower :: (rest.map snakeChar).flatten)

/-- The canonical wire name of a field: the explicit override when present,
else the snake-case form of the logical name. -/
def wireName (f : FieldDef) : String :=
  f.nameOverride.getD (snakeCase f.fname)

/-- Modelled from the spec: the wire-type names used in the signature
string (§4.3); `u24` serializes as `uint32_t` and `u48` as `uint64_t`.
(The spec also lists a special name `uint8_t_mavlink_version`, but the
extra-CRC bytes pinned by the test suite — HEARTBEAT = 50 — require the
plain `uint8_t` name for the `mavlink_version` field, so the plain names
are used throughout.) -/
def typeName (f : FieldDef) : String :=
  match f.typ with
  | .u8 => "uint8_t"
  | .i8 => "int8_t"
  | .u16 => "uint16_t"
  | .i16 => "int16_t"
  | .u32 => "uint32_t"
  | .i32 => "int32_t"
  | .u64 => "uint64_t"
  | .i64 => "int64_t"
  | .u24 => "uint32_t"
  | .u48 => "uint64_t"
  | .f32 => "float"
  | .f64 => "double"
  | .char => "char"

/-- Uppercase every character of a string (character-list level). -/
def upperStr (s : String) : String := String.mk (s.data.map Char.toUpper)

/-- Drop the first `n` characters of a string (character-list level). -/
def dropStr (s : String) (n : Nat) : String := String.mk (s.data.drop n)

/-- Modelled from the spec: the message wire name (§4.3): strip the fixed
`Message` prefix (7 characters), snake-case, uppercase. -/
def msgWireName (m : MessageDef) : String :=
  upperStr (snakeCase (dropStr m.mname 7))

/-- The bytes of an ASCII string. -/
def strBytes (s : String) : List Nat := s.data.map Char.toNat

/-- One step of the CRC-16/MCRF4XX accumulator (polynomial 0x1021,
reflected), as used by the protocol. -/
def x25Byte (crc b : Nat) : Nat :=
  let tmp := (b ^^^ (crc % 256)) % 256
  let tmp2 := (tmp ^^^ ((tmp <<< 4) % 256)) % 256
  ((crc >>> 8) ^^^ (tmp2 <<< 8) ^^^ (tmp2 <<< 3) ^^^ (tmp2 >>> 4)) % 65536

/-- CRC-16/MCRF4XX over a byte list, init 0xFFFF, no final XOR. -/
def x25 (bs : List Nat) : Nat := bs.foldl x25Byte 0xFFFF

/-- Modelled from the spec: the per-field portion of the canonical
signature string (§4.3): the wire-type name, a space, the field wire name,
a space, then — for an array — the array length as a single raw byte
(the raw-byte form is what the pinned extra-CRC test bytes require). -/
def fieldSig (f : FieldDef) : List Nat :=
  strBytes (typeName f ++ " " ++ wireName f ++ " ") ++
  (if f.arrayLen ≠ 0 then [f.arrayLen % 256] else [])

/-- Modelled from the spec: the canonical signature byte string (§4.3):
the message wire name and a space, then each non-extension field in the
sorted wire order. -/
def crcSignature (m : MessageDef) : List Nat :=
  strBytes (msgWireName m ++ " ") ++ ((nonExtWire m).map (fun p => fieldSig p.2)).flatten

/-- Modelled from the spec: the extra-CRC byte (§4.3):
`(crc & 0xFF) XOR (crc >> 8)` of the CRC-16/MCRF4XX of the signature. -/
def crcExtra (m : MessageDef) : Nat :=
  ((x25 (crcSignature m)) % 256) ^^^ ((x25 (crcSignature m)) >>> 8)

/-! ## The primitive u24/u48 helpers, from `various.go` -/

/-- `uint24Decode` from `various.go`:
`uint32(in[2])<<16 | uint32(in[1])<<8 | uint32(in[0])`; indexing past the
end of the slice (the Go panic) is modelled as `none`. -/
def uint24Decode (l : List Nat) : Option Nat :=
  match l[2]?, l[1]?, l[0]? with
  | some b2, some b1, some b0 => some (((b2 <<< 16) ||| (b1 <<< 8)) ||| b0)
  | _, _, _ => none

/-- `uint24Encode` from `various.go`: the three bytes
`byte(in), byte(in >> 8), byte(in >> 16)` (each `byte` cast truncates
modulo 256). -/
def uint24Encode (x : Nat) : List Nat :=
  [x % 256, (x >>> 8) % 256, (x >>> 16) % 256]

/-- `uint48Decode` from `various.go`: the six-byte little-endian read
`uint64(in[5])<<40 | ... | uint64(in[0])`; out-of-range indexing is
modelled as `none`. -/
def uint48Decode (l : List Nat) : Option Nat :=
  match l[5]?, l[4]?, l[3]?, l[2]?, l[1]?, l[0]? with
  | some b5, some b4, some b3, some b2, some b1, some b0 =>
      some ((((((b5 <<< 40) ||| (b4 <<< 32)) ||| (b3 <<< 24)) ||| (b2 <<< 16)) ||| (b1 <<< 8)) ||| b0)
  | _, _, _, _, _, _ => none

/-- `uint48Encode` from `various.go`: the six bytes
`byte(in), byte(in >> 8), ..., byte(in >> 40)`. -/
def uint48Encode (x : Nat) : List Nat :=
  [x % 256, (x >>> 8) % 256, (x >>> 16) % 256,
   (x >>> 24) % 256, (x >>> 32) % 256, (x >>> 40) % 256]

/-! ## The seven test-suite message schemas (from the test source file) -/

/-- `MessageHeartbeat` (id 0) from the test source: three `uint8` enums, a
`uint32`, a `uint8` enum, a `uint8`. -/
def heartbeatDef : MessageDef :=
  ⟨"MessageHeartbeat", 0,
   [⟨"Type", none, .u8, 0, false⟩,
    ⟨"Autopilot", none, .u8, 0, false⟩,
    ⟨"BaseMode", none, .u8, 0, false⟩,
    ⟨"CustomMode", none, .u32, 0, false⟩,
    ⟨"SystemStatus", none, .u8, 0, false⟩,
    ⟨"MavlinkVersion", none, .u8, 0, false⟩]⟩

/-- `MessageSysStatus` (id 1) from the test source. -/
def sysStatusDef : MessageDef :=
  ⟨"MessageSysStatus", 1,
   [⟨"OnboardControlSensorsPresent", none, .u32, 0, false⟩,
    ⟨"OnboardControlSensorsEnabled", none, .u32, 0, false⟩,
    ⟨"OnboardControlSensorsHealth", none, .u32, 0, false⟩,
    ⟨"Load", none, .u16, 0, false⟩,
    ⟨"VoltageBattery", none, .u16, 0, false⟩,
    ⟨"CurrentBattery", none, .i16, 0, false⟩,
    ⟨"BatteryRemaining", none, .i8, 0, false⟩,
    ⟨"DropRateComm", none, .u16, 0, false⟩,
    ⟨"ErrorsComm", none, .u16, 0, false⟩,
    ⟨"ErrorsCount1", none, .u16, 0, false⟩,
    ⟨"ErrorsCount2", none, .u16, 0, false⟩,
    ⟨"ErrorsCount3", none, .u16, 0, false⟩,
    ⟨"ErrorsCount4", none, .u16, 0, false⟩]⟩

/-- `MessageChangeOperatorControl` (id 5) from the test source: three
`uint8` scalars and a 25-byte string. -/
def changeOperatorControlDef : MessageDef :=
  ⟨"MessageChangeOperatorControl", 5,
   [⟨"TargetSystem", none, .u8, 0, false⟩,
    ⟨"ControlRequest", none, .u8, 0, false⟩,
    ⟨"Version", none, .u8, 0, false⟩,
    ⟨"Passkey", none, .char, 25, false⟩]⟩

/-- `MessageAttitudeQuaternionCov` (id 61) from the test source. -/
def attitudeQuaternionCovDef : MessageDef :=
  ⟨"MessageAttitudeQuaternionCov", 61,
   [⟨"TimeUsec", none, .u64, 0, false⟩,
    ⟨"Q", none, .f32, 4, false⟩,
    ⟨"Rollspeed", none, .f32, 0, false⟩,
    ⟨"Pitchspeed", none, .f32, 0, false⟩,
    ⟨"Yawspeed", none, .f32, 0, false⟩,
    ⟨"Covariance", none, .f32, 9, false⟩]⟩

/-- `MessageOpticalFlow` (id 100) from the test source: the last two
fields are extensions. -/
def opticalFlowDef : MessageDef :=
  ⟨"MessageOpticalFlow", 100,
   [⟨"TimeUsec", none, .u64, 0, false⟩,
    ⟨"SensorId", none, .u8, 0, false⟩,
    ⟨"FlowX", none, .i16, 0, false⟩,
    ⟨"FlowY", none, .i16, 0, false⟩,
    ⟨"FlowCompMX", none, .f32, 0, false⟩,
    ⟨"FlowCompMY", none, .f32, 0, false⟩,
    ⟨"Quality", none, .u8, 0, false⟩,
    ⟨"GroundDistance", none, .f32, 0, false⟩,
    ⟨"FlowRateX", none, .f32, 0, true⟩,
    ⟨"FlowRateY", none, .f32, 0, true⟩]⟩

/-- `MessagePlayTune` (id 258) from the test source: a 30-byte string and
a 200-byte extension string. -/
def playTuneDef : MessageDef :=
  ⟨"MessagePlayTune", 258,
   [⟨"TargetSystem", none, .u8, 0, false⟩,
    ⟨"TargetComponent", none, .u8, 0, false⟩,
    ⟨"Tune", none, .char, 30, false⟩,
    ⟨"Tune2", none, .char, 200, true⟩]⟩

/-- `MessageAhrs` (id 163) from the test source: seven `float32` fields,
the first three with explicit wire-name overrides. -/
def ahrsDef : MessageDef :=
  ⟨"MessageAhrs", 163,
   [⟨"OmegaIx", some "omegaIx", .f32, 0, false⟩,
    ⟨"OmegaIy", some "omegaIy", .f32, 0, false⟩,
    ⟨"OmegaIz", some "omegaIz", .f32, 0, false⟩,
    ⟨"AccelWeight", none, .f32, 0, false⟩,
    ⟨"RenormVal", none, .f32, 0, false⟩,
    ⟨"ErrorRp", none, .f32, 0, false⟩,
    ⟨"ErrorYaw", none, .f32, 0, false⟩]⟩

/-! ## Concrete structured values and wire vectors from the test suite -/

/-- The `MessageHeartbeat` value of the v1 test vectors, in declaration
order: Type=1, Autopilot=2, BaseMode=3, CustomMode=6, SystemStatus=4,
MavlinkVersion=5. -/
def heartbeatVal : List (List Nat) := [[1], [2], [3], [6], [4], [5]]

/-- The 9-byte v1 wire vector of `heartbeatVal` from the test suite. -/
def heartbeatBytes : List Nat := [6, 0, 0, 0, 1, 2, 3, 4, 5]

/-- The `MessageOpticalFlow` value of the test vectors, in declaration
order (floats as their IEEE-754 bit patterns; 1.0f = 0x3F800000):
TimeUsec=3, SensorId=9, FlowX=7, FlowY=8, FlowCompMX=1.0, FlowCompMY=1.0,
Quality=10, GroundDistance=1.0, FlowRateX=1.0, FlowRateY=1.0. -/
def opticalFlowVal : List (List Nat) :=
  [[3], [9], [7], [8], [0x3F800000], [0x3F800000], [10], [0x3F800000],
   [0x3F800000], [0x3F800000]]

/-- The 26-byte v1 wire vector of `opticalFlowVal` from the test suite. -/
def opticalFlowBytesV1 : List Nat :=
  [3, 0, 0, 0, 0, 0, 0, 0,
   0, 0, 0x80, 0x3F, 0, 0, 0x80, 0x3F, 0, 0, 0x80, 0x3F,
   7, 0, 8, 0, 9, 0x0A]

/-- The 34-byte v2 wire vector of `opticalFlowVal` from the test suite:
the v1 bytes followed by the two extension floats. -/
def opticalFlowBytesV2 : List Nat :=
  opticalFlowBytesV1 ++ [0, 0, 0x80, 0x3F, 0, 0, 0x80, 0x3F]

/-- The `MessageAhrs` value of the v2 empty-byte test vectors, in
declaration order: OmegaIx=1.0, OmegaIy=2.0, OmegaIz=3.0, AccelWeight=4.0,
RenormVal=5.0, ErrorRp=0, ErrorYaw=0 (floats as IEEE-754 bit patterns). -/
def ahrsVal : List (List Nat) :=
  [[0x3F800000], [0x40000000], [0x40400000], [0x40800000], [0x40A00000], [0], [0]]

/-- The 20-byte v2 wire vector of `ahrsVal` from the test suite (the full
28-byte payload with its trailing 8 zero bytes stripped). -/
def ahrsBytesV2 : List Nat :=
  [0, 0, 0x80, 0x3F, 0, 0, 0, 0x40, 0, 0, 0x40, 0x40,
   0, 0, 0x80, 0x40, 0, 0, 0xA0, 0x40]

/-! ## Well-typed structured values -/

/-- A field value conforms to its field descriptor: a string value has at
most the declared length and only nonzero bytes; a numeric value has one
element per array slot (one for a scalar), each representable in the wire
width. -/
def wellTypedF (f : FieldDef) (v : List Nat) : Prop :=
  if isStr f then v.length ≤ f.arrayLen ∧ ∀ b ∈ v, 0 < b ∧ b < 256
  else v.length = max f.arrayLen 1 ∧ ∀ x ∈ v, x < 256 ^ f.typ.width

instance (f : FieldDef) (v : List Nat) : Decidable (wellTypedF f v) := by
  unfold wellTypedF
  infer_instance

/-- A structured value conforms to a message schema: one field value per
declared field, each conforming to its descriptor. -/
def WellTyped (m : MessageDef) (v : List (List Nat)) : Prop :=
  v.length = m.fields.length ∧
  ∀ p ∈ withIdx m.fields, wellTypedF p.2 (v.getD p.1 [])

instance (m : MessageDef) (v : List (List Nat)) : Decidable (WellTyped m v) := by
  unfold WellTyped
  infer_instance

/-- The value with every extension field replaced by its zero/default
value (what a v1 round trip preserves). -/
def clearExt (m : MessageDef) (v : List (List Nat)) : List (List Nat) :=
  (withIdx m.fields).map (fun p => if p.2.isExt then defaultValue p.2 else v.getD p.1 [])

/-! ## Little-endian lemmas -/

theorem natLE_length (w x : Nat) : (natLE w x).length = w := by
  induction w generalizing x with
  | zero => rfl
  | succ w ih => simp [natLE, ih]

theorem leDecode_natLE (w x : Nat) (h : x < 256 ^ w) : leDecode (natLE w x) = x := by
  induction w generalizing x with
  | zero =>
    simp only [pow_zero, Nat.lt_one_iff] at h
    simp [natLE, leDecode, h]
  | succ w ih =>
    have hdiv : x / 256 < 256 ^ w := by
      apply Nat.div_lt_of_lt_mul
      rw [Nat.mul_comm]
      exact lt_of_lt_of_le h (le_of_eq (pow_succ 256 w))
    simp only [natLE, leDecode, ih (x / 256) hdiv]
    omega

/-! ## Per-field codec lemmas -/

theorem flatten_map_natLE_length (w : Nat) (v : List Nat) :
    ((v.map (natLE w)).flatten).length = w * v.length := by
  induction v with
  | nil => simp
  | cons a l ih =>
    simp only [List.map_cons, List.flatten_cons, List.length_append, natLE_length, ih,
      List.length_cons]
    ring

/-- The string predicate unpacked. -/
theorem isStr_iff (f : FieldDef) : isStr f = true ↔ f.typ = WireType.char ∧ f.arrayLen ≠ 0 := by
  simp [isStr]

theorem encodeField_length (f : FieldDef) (v : List Nat) (h : wellTypedF f v) :
    (encodeField f v).length = fieldWireSize f := by
  unfold wellTypedF at h
  unfold encodeField fieldWireSize
  by_cases hs : isStr f
  · obtain ⟨hc, ha⟩ := (isStr_iff f).1 hs
    simp only [hs, if_true] at h ⊢
    simp only [List.length_append, List.length_take, List.length_replicate, hc, WireType.width]
    omega
  · simp only [hs] at h
    simp only [if_neg hs, flatten_map_natLE_length, h.1, Bool.false_eq_true]

theorem takeWhile_append_replicate_zero (v : List Nat) (k : Nat) (hv : ∀ b ∈ v, b ≠ 0) :
    (v ++ List.replicate k 0).takeWhile (fun b => decide (b ≠ 0)) = v := by
  induction v with
  | nil =>
    cases k with
    | zero => rfl
    | succ k => simp [List.replicate_succ, List.takeWhile_cons]
  | cons a t ih =>
    have ha : a ≠ 0 := hv a (List.mem_cons_self a t)
    simp only [List.cons_append, List.takeWhile_cons, decide_eq_true_eq, if_pos ha]
    rw [ih (fun b hb => hv b (List.mem_cons_of_mem a hb))]

theorem decodeElems_flatten (w : Nat) (v : List Nat) (hv : ∀ x ∈ v, x < 256 ^ w)
    (rest : List Nat) :
    decodeElems w v.length ((v.map (natLE w)).flatten ++ rest) = v := by
  induction v generalizing rest with
  | nil => rfl
  | cons a l ih =>
    simp only [List.map_cons, List.flatten_cons, List.length_cons, decodeElems,
      List.append_assoc]
    rw [List.take_left' (natLE_length w a), List.drop_left' (natLE_length w a),
      leDecode_natLE w a (hv a (List.mem_cons_self a l)),
      ih (fun x hx => hv x (List.mem_cons_of_mem a hx)) rest]

theorem decodeField_encodeField (f : FieldDef) (v : List Nat) (h : wellTypedF f v)
    (rest : List Nat) :
    decodeField f (encodeField f v ++ rest) = v := by
  unfold wellTypedF at h
  unfold decodeField encodeField
  by_cases hs : isStr f
  · simp only [hs, if_true] at h ⊢
    obtain ⟨hlen, hbytes⟩ := h
    rw [List.take_of_length_le hlen]
    have hfull : (v ++ List.replicate (f.arrayLen - v.length) 0).length = f.arrayLen := by
      simp only [List.length_append, List.length_replicate]
      omega
    rw [List.take_left' hfull]
    exact takeWhile_append_replicate_zero v _ (fun b hb => by have := (hbytes b hb).1; omega)
  · simp only [hs, Bool.false_eq_true, if_false] at h ⊢
    rw [← h.1]
    exact decodeElems_flatten f.typ.width v h.2 rest

/-! ## Trailing-zero stripping lemmas -/

theorem takeWhile_zero_eq_replicate (l : List Nat) :
    l.takeWhile (fun b => b == 0) =
      List.replicate (l.takeWhile (fun b => b == 0)).length 0 := by
  induction l with
  | nil => rfl
  | cons a t ih =>
    by_cases h : a = 0
    · subst h
      simp only [List.takeWhile_cons, beq_self_eq_true, if_true, List.length_cons,
        List.replicate_succ]
      rw [← ih]
    · simp [List.takeWhile_cons, h]

theorem dropWhile_head_false (p : Nat → Bool) (l : List Nat) (a : Nat) (t : List Nat)
    (h : l.dropWhile p = a :: t) : p a = false := by
  induction l with
  | nil => simp [List.dropWhile] at h
  | cons b bt ih =>
    rw [List.dropWhile_cons] at h
    by_cases hb : p b
    · rw [if_pos hb] at h
      exact ih h
    · rw [if_neg hb] at h
      cases h
      exact Bool.not_eq_true _ |>.mp hb

/-- Case characterization of `stripTZ`. -/
theorem stripTZ_eq (l : List Nat) :
    stripTZ l = if l.reverse.dropWhile (fun b => b == 0) = [] then l.take 1
      else (l.reverse.dropWhile (fun b => b == 0)).reverse := by
  unfold stripTZ
  by_cases hd : l.reverse.dropWhile (fun b => b == 0) = []
  · simp [hd]
  · simp only [List.isEmpty_iff, List.reverse_eq_nil_iff, hd, if_false]

/-- When every trailing byte check empties the list, the whole list is
zero. -/
theorem all_zero_of_dropWhile_reverse_nil (l : List Nat)
    (hd : l.reverse.dropWhile (fun b => b == 0) = []) :
    l = List.replicate l.length 0 := by
  have hsplit := List.takeWhile_append_dropWhile (fun b => b == 0) l.reverse
  rw [hd, List.append_nil] at hsplit
  have hrep := takeWhile_zero_eq_replicate l.reverse
  rw [hsplit] at hrep
  calc l = l.reverse.reverse := (List.reverse_reverse l).symm
    _ = (List.replicate l.reverse.length 0).reverse := by rw [← hrep]
    _ = List.replicate l.length 0 := by rw [List.reverse_replicate, List.length_reverse]

/-- Splitting a list at its trailing zeros: the stripped form followed by
the stripped zeros is the original list. -/
theorem stripTZ_append_replicate (l : List Nat) :
    stripTZ l ++ List.replicate (l.length - (stripTZ l).length) 0 = l := by
  rw [stripTZ_eq]
  by_cases hd : l.reverse.dropWhile (fun b => b == 0) = []
  · rw [if_pos hd]
    have hl := all_zero_of_dropWhile_reverse_nil l hd
    cases hl0 : l with
    | nil => simp
    | cons a t =>
      rw [hl0] at hl
      simp only [List.length_cons, List.replicate_succ, List.cons.injEq] at hl
      obtain ⟨ha, ht⟩ := hl
      subst ha
      have hto : List.take 1 (0 :: t) = [0] := by simp
      rw [hto]
      have hlen1 : (0 :: t).length - ([0] : List Nat).length = t.length := by
        simp
      rw [hlen1, List.singleton_append]
      exact congrArg (List.cons 0) ht.symm
  · rw [if_neg hd]
    have hsplit := List.takeWhile_append_dropWhile (fun b => b == 0) l.reverse
    have hrep := takeWhile_zero_eq_replicate l.reverse
    have hlrw : l = (l.reverse.dropWhile (fun b => b == 0)).reverse ++
        (l.reverse.takeWhile (fun b => b == 0)).reverse := by
      conv_lhs => rw [← List.reverse_reverse l, ← hsplit]
      rw [List.reverse_append]
    conv_rhs => rw [hlrw]
    congr 1
    rw [hrep, List.reverse_replicate]
    congr 1
    have hlens := congrArg List.length hsplit
    simp only [List.length_append, List.length_reverse] at hlens ⊢
    omega

theorem stripTZ_length_le (l : List Nat) : (stripTZ l).length ≤ l.length := by
  have := congrArg List.length (stripTZ_append_replicate l)
  simp only [List.length_append, List.length_replicate] at this
  omega

theorem stripTZ_length_pos (l : List Nat) (h : l ≠ []) : 0 < (stripTZ l).length := by
  rw [stripTZ_eq]
  by_cases hd : l.reverse.dropWhile (fun b => b == 0) = []
  · rw [if_pos hd]
    cases l with
    | nil => exact absurd rfl h
    | cons a t => simp
  · rw [if_neg hd]
    simp only [List.length_reverse]
    exact List.length_pos.mpr hd

/-- The stripped form is maximal: when longer than one byte, its last byte
is nonzero. -/
theorem stripTZ_getLast_ne_zero (l : List Nat) (h : 1 < (stripTZ l).length) :
    (stripTZ l).getLast? ≠ some 0 := by
  rw [stripTZ_eq] at h ⊢
  by_cases hd : l.reverse.dropWhile (fun b => b == 0) = []
  · rw [if_pos hd] at h
    have : (l.take 1).length ≤ 1 := by
      simp [List.length_take]
    omega
  · rw [if_neg hd] at h ⊢
    rw [List.getLast?_reverse]
    cases hcase : l.reverse.dropWhile (fun b => b == 0) with
    | nil => exact absurd hcase hd
    | cons a t =>
      have := dropWhile_head_false _ _ _ _ hcase
      simp only [List.head?_cons, ne_eq, Option.some.injEq]
      intro hz
      rw [hz] at this
      simp at this

/-! ## Declaration-index lemmas -/

theorem withIdxFrom_length (n : Nat) (l : List FieldDef) :
    (withIdxFrom n l).length = l.length := by
  induction l generalizing n with
  | nil => rfl
  | cons f t ih => simp [withIdxFrom, ih]

theorem withIdxFrom_getElem? (n : Nat) (l : List FieldDef) (j : Nat) :
    (withIdxFrom n l)[j]? = (l[j]?).map (fun f => (n + j, f)) := by
  induction l generalizing n j with
  | nil => simp [withIdxFrom]
  | cons f t ih =>
    cases j with
    | zero => simp [withIdxFrom]
    | succ j =>
      simp only [withIdxFrom, List.getElem?_cons_succ, ih (n + 1) j]
      congr 1
      funext g
      simp only [Prod.mk.injEq, and_true]
      omega

theorem withIdx_getElem? (l : List FieldDef) (j : Nat) :
    (withIdx l)[j]? = (l[j]?).map (fun f => (j, f)) := by
  unfold withIdx
  rw [withIdxFrom_getElem?]
  simp

theorem withIdx_length (l : List FieldDef) : (withIdx l).length = l.length :=
  withIdxFrom_length 0 l

/-- Membership in the indexed field list is exactly indexed lookup. -/
theorem mem_withIdx_iff (l : List FieldDef) (j : Nat) (f : FieldDef) :
    (j, f) ∈ withIdx l ↔ l[j]? = some f := by
  constructor
  · intro h
    obtain ⟨k, hk⟩ := List.mem_iff_getElem?.1 h
    rw [withIdx_getElem? l k] at hk
    cases hl : l[k]? with
    | none => rw [hl] at hk; simp at hk
    | some g =>
      rw [hl] at hk
      have hk2 : k = j ∧ g = f := by simpa using hk
      obtain ⟨hkj, hgf⟩ := hk2
      rw [← hkj, hl, hgf]
  · intro h
    apply List.mem_iff_getElem?.2
    exact ⟨j, by rw [withIdx_getElem?, h]; rfl⟩

/-! ## Decode-loop lemmas -/

/-- First field associated with declaration index `j` in a wire field
list. -/
def lookupF (j : Nat) : List (Nat × FieldDef) → Option FieldDef
  | [] => none
  | p :: rest => if p.1 = j then some p.2 else lookupF j rest

theorem lookupF_eq_none_iff (j : Nat) (wl : List (Nat × FieldDef)) :
    lookupF j wl = none ↔ ∀ f, (j, f) ∉ wl := by
  induction wl with
  | nil => simp [lookupF]
  | cons p rest ih =>
    unfold lookupF
    by_cases hp : p.1 = j
    · simp only [if_pos hp]
      constructor
      · intro h
        simp at h
      · intro h
        exact absurd (List.mem_cons_self p rest)
          (by rw [← hp] at h; exact fun hh => h p.2 (by simpa using hh))
    · simp only [if_neg hp, ih]
      constructor
      · intro h f hf
        rcases List.mem_cons.1 hf with heq | hmem
        · exact hp (by rw [← heq])
        · exact h f hmem
      · intro h f hf
        exact h f (List.mem_cons_of_mem p hf)

theorem mem_of_lookupF_eq_some (j : Nat) (wl : List (Nat × FieldDef)) (f : FieldDef)
    (h : lookupF j wl = some f) : (j, f) ∈ wl := by
  induction wl with
  | nil => simp [lookupF] at h
  | cons p rest ih =>
    unfold lookupF at h
    by_cases hp : p.1 = j
    · rw [if_pos hp] at h
      have : p = (j, f) := by
        cases p
        simp only [Option.some.injEq] at h
        simp only [Prod.mk.injEq]
        exact ⟨hp, h⟩
      rw [← this]
      exact List.mem_cons_self p rest
    · rw [if_neg hp] at h
      exact List.mem_cons_of_mem p (ih h)

theorem decodeFieldsLoop_length (wl : List (Nat × FieldDef)) (bs : List Nat)
    (acc : List (List Nat)) : (decodeFieldsLoop wl bs acc).length = acc.length := by
  induction wl generalizing bs acc with
  | nil => rfl
  | cons p rest ih => simp [decodeFieldsLoop, ih, List.length_set]

/-- Indices that never occur in the wire field list are left untouched by
the decode loop, whatever the buffer contains. -/
theorem decodeFieldsLoop_not_found (wl : List (Nat × FieldDef)) (bs : List Nat)
    (acc : List (List Nat)) (j : Nat) (h : lookupF j wl = none) :
    (decodeFieldsLoop wl bs acc)[j]? = acc[j]? := by
  induction wl generalizing bs acc with
  | nil => rfl
  | cons p rest ih =>
    unfold lookupF at h
    by_cases hp : p.1 = j
    · rw [if_pos hp] at h
      simp at h
    · rw [if_neg hp] at h
      unfold decodeFieldsLoop
      rw [ih _ _ h, List.getElem?_set_ne hp]

/-- Main loop lemma: running the decode loop over the concatenated
encodings of its own wire field list recovers each listed field's value. -/
theorem decodeFieldsLoop_found (v : List (List Nat)) (wl : List (Nat × FieldDef))
    (hwt : ∀ p ∈ wl, wellTypedF p.2 (v.getD p.1 [])) (acc : List (List Nat))
    (hlt : ∀ p ∈ wl, p.1 < acc.length) (j : Nat)
    (hfind : (lookupF j wl).isSome = true) :
    (decodeFieldsLoop wl (encWire wl v) acc)[j]? = some (v.getD j []) := by
  induction wl generalizing acc with
  | nil => simp [lookupF] at hfind
  | cons p rest ih =>
    obtain ⟨i, g⟩ := p
    have hwhead : wellTypedF g (v.getD i []) := hwt (i, g) (List.mem_cons_self _ _)
    have hench : encWire ((i, g) :: rest) v =
        encodeField g (v.getD i []) ++ encWire rest v := by
      simp [encWire]
    have hdec : decodeField g (encodeField g (v.getD i []) ++ encWire rest v) =
        v.getD i [] := decodeField_encodeField g _ hwhead _
    have hdrop : (encodeField g (v.getD i []) ++ encWire rest v).drop (fieldWireSize (i, g).2) =
        encWire rest v :=
      List.drop_left' (encodeField_length g _ hwhead)
    unfold decodeFieldsLoop
    rw [hench, hdrop]
    have hacc' : (acc.set (i, g).1 (decodeField (i, g).2
        (encodeField g (v.getD i []) ++ encWire rest v))) = acc.set i (v.getD i []) := by
      simp only [hdec]
    rw [hacc']
    unfold lookupF at hfind
    by_cases hrest : lookupF j rest = none
    · rw [decodeFieldsLoop_not_found _ _ _ _ hrest]
      by_cases hp : i = j
      · subst hp
        rw [List.getElem?_set_self (by simpa using hlt (i, g) (List.mem_cons_self _ _))]
      · rw [if_neg hp, hrest] at hfind
        exact absurd hfind (by simp)
    · have hf' : (lookupF j rest).isSome = true := Option.isSome_iff_ne_none.2 hrest
      exact ih (fun q hq => hwt q (List.mem_cons_of_mem _ hq))
        (acc.set i (v.getD i []))
        (fun q hq => by rw [List.length_set]; exact hlt q (List.mem_cons_of_mem _ hq))
        hf'

/-! ## Wire-list membership characterization -/

theorem width_mem_cases (t : WireType) :
    t.width = 8 ∨ t.width = 6 ∨ t.width = 4 ∨ t.width = 3 ∨ t.width = 2 ∨ t.width = 1 := by
  cases t <;> simp [WireType.width]

theorem mem_widthFilter (l : List (Nat × FieldDef)) (w : Nat) (p : Nat × FieldDef) :
    p ∈ widthFilter l w ↔ p ∈ l ∧ p.2.typ.width = w := by
  unfold widthFilter
  rw [List.mem_filter]
  simp

theorem mem_nonExtIdx (m : MessageDef) (p : Nat × FieldDef) :
    p ∈ nonExtIdx m ↔ p ∈ withIdx m.fields ∧ p.2.isExt = false := by
  unfold nonExtIdx
  rw [List.mem_filter]
  simp

theorem mem_nonExtWire_iff (m : MessageDef) (p : Nat × FieldDef) :
    p ∈ nonExtWire m ↔ p ∈ withIdx m.fields ∧ p.2.isExt = false := by
  unfold nonExtWire
  simp only [List.mem_append, mem_widthFilter, mem_nonExtIdx]
  constructor
  · intro h
    tauto
  · intro h
    rcases width_mem_cases p.2.typ with hw | hw | hw | hw | hw | hw <;> tauto

theorem mem_extWire_iff (m : MessageDef) (p : Nat × FieldDef) :
    p ∈ extWire m ↔ p ∈ withIdx m.fields ∧ p.2.isExt = true := by
  unfold extWire
  rw [List.mem_filter]

theorem mem_wireFields_iff (m : MessageDef) (p : Nat × FieldDef) :
    p ∈ wireFields m ↔ p ∈ withIdx m.fields := by
  unfold wireFields
  rw [List.mem_append, mem_nonExtWire_iff, mem_extWire_iff]
  constructor
  · rintro (⟨h, _⟩ | ⟨h, _⟩) <;> exact h
  · intro h
    by_cases hext : p.2.isExt
    · exact Or.inr ⟨h, hext⟩
    · exact Or.inl ⟨h, by simpa using hext⟩

/-! ## Whole-payload lemmas -/

theorem encWire_append (a b : List (Nat × FieldDef)) (v : List (List Nat)) :
    encWire (a ++ b) v = encWire a v ++ encWire b v := by
  unfold encWire
  rw [List.map_append, List.flatten_append]

theorem encWire_length (wl : List (Nat × FieldDef)) (v : List (List Nat))
    (h : ∀ p ∈ wl, wellTypedF p.2 (v.getD p.1 [])) :
    (encWire wl v).length = sumSizes wl := by
  induction wl with
  | nil => rfl
  | cons p rest ih =>
    unfold encWire sumSizes
    simp only [List.map_cons, List.flatten_cons, List.length_append, List.sum_cons]
    have h1 := encodeField_length p.2 _ (h p (List.mem_cons_self _ _))
    have h2 := ih (fun q hq => h q (List.mem_cons_of_mem _ hq))
    unfold encWire sumSizes at h2
    rw [h1, h2]

theorem sizeNormal_le_sizeTotal (m : MessageDef) : sizeNormal m ≤ sizeTotal m := by
  unfold sizeNormal sizeTotal wireFields sumSizes
  rw [List.map_append, List.sum_append]
  exact Nat.le_add_right _ _

theorem lookupF_isSome_of_mem (j : Nat) (f : FieldDef) (wl : List (Nat × FieldDef))
    (h : (j, f) ∈ wl) : (lookupF j wl).isSome = true := by
  induction wl with
  | nil => simp at h
  | cons p rest ih =>
    unfold lookupF
    by_cases hp : p.1 = j
    · simp [hp]
    · rcases List.mem_cons.1 h with heq | hmem
      · exact absurd (by rw [← heq] : p.1 = j) hp
      · simp [hp, ih hmem]

/-- Successful decode shape: a nonempty payload within the expected size
decodes to the loop result over the zero-padded buffer. -/
theorem decodePayload_ok_shape (m : MessageDef) (payload : List Nat) (isV2 : Bool)
    (hne : payload ≠ [])
    (hle : payload.length ≤ (if isV2 then sizeTotal m else sizeNormal m)) :
    decodePayload m payload isV2 = Except.ok (decodeFieldsLoop
      (if isV2 then wireFields m else nonExtWire m)
      (payload ++ List.replicate ((if isV2 then sizeTotal m else sizeNormal m) - payload.length) 0)
      (m.fields.map defaultValue)) := by
  have h1 : ¬payload.length = 0 := by
    simpa [List.length_eq_zero] using hne
  have h2 : ¬((if isV2 then sizeTotal m else sizeNormal m) < payload.length) := by
    omega
  simp only [decodePayload]
  rw [if_neg h1, if_neg h2]

/-- C1 core, v2 direction: the decode loop over the full encoded buffer
recovers the structured value. -/
theorem decode_loop_full_recovers (m : MessageDef) (v : List (List Nat))
    (hlen : v.length = m.fields.length)
    (hfields : ∀ p ∈ withIdx m.fields, wellTypedF p.2 (v.getD p.1 [])) :
    decodeFieldsLoop (wireFields m) (fullEncode m v) (m.fields.map defaultValue) = v := by
  unfold fullEncode
  have hwtW : ∀ p ∈ wireFields m, wellTypedF p.2 (v.getD p.1 []) :=
    fun p hp => hfields p ((mem_wireFields_iff m p).1 hp)
  have hltW : ∀ p ∈ wireFields m, p.1 < (m.fields.map defaultValue).length := by
    intro p hp
    rw [List.length_map]
    have hm := (mem_withIdx_iff m.fields p.1 p.2).1
      (by rw [← Prod.mk.eta (p := p)] at hp ⊢; exact (mem_wireFields_iff m p).1 hp)
    obtain ⟨hlt, _⟩ := List.getElem?_eq_some.1 hm
    exact hlt
  apply List.ext_getElem?
  intro j
  by_cases hj : j < m.fields.length
  · have hfj : m.fields[j]? = some m.fields[j] := List.getElem?_eq_getElem hj
    have hmem : (j, m.fields[j]) ∈ wireFields m :=
      (mem_wireFields_iff m (j, m.fields[j])).2 ((mem_withIdx_iff _ _ _).2 hfj)
    have hfound := lookupF_isSome_of_mem j m.fields[j] (wireFields m) hmem
    rw [decodeFieldsLoop_found v (wireFields m) hwtW _ hltW j hfound]
    rw [List.getElem?_eq_getElem (by omega : j < v.length),
      List.getD_eq_getElem v [] (by omega : j < v.length)]
  · have hres : (decodeFieldsLoop (wireFields m) (encWire (wireFields m) v)
        (m.fields.map defaultValue)).length = m.fields.length := by
      rw [decodeFieldsLoop_length, List.length_map]
    rw [List.getElem?_eq_none (by omega : v.length ≤ j),
      List.getElem?_eq_none (by rw [hres]; omega)]

/-- C1 core, v1 direction: the decode loop over the non-extension encoded
buffer recovers the structured value with extensions cleared. -/
theorem decode_loop_nonext_recovers (m : MessageDef) (v : List (List Nat))
    (_hlen : v.length = m.fields.length)
    (hfields : ∀ p ∈ withIdx m.fields, wellTypedF p.2 (v.getD p.1 [])) :
    decodeFieldsLoop (nonExtWire m) (encWire (nonExtWire m) v) (m.fields.map defaultValue) =
      clearExt m v := by
  have hwtN : ∀ p ∈ nonExtWire m, wellTypedF p.2 (v.getD p.1 []) :=
    fun p hp => hfields p ((mem_nonExtWire_iff m p).1 hp).1
  have hltN : ∀ p ∈ nonExtWire m, p.1 < (m.fields.map defaultValue).length := by
    intro p hp
    rw [List.length_map]
    have hm := (mem_withIdx_iff m.fields p.1 p.2).1
      (by rw [← Prod.mk.eta (p := p)] at hp ⊢; exact ((mem_nonExtWire_iff m p).1 hp).1)
    obtain ⟨hlt, _⟩ := List.getElem?_eq_some.1 hm
    exact hlt
  apply List.ext_getElem?
  intro j
  have hclear : (clearExt m v)[j]? = ((m.fields[j]?).map
      (fun f => if f.isExt then defaultValue f else v.getD j [])) := by
    unfold clearExt
    rw [List.getElem?_map, withIdx_getElem?, Option.map_map]
    rfl
  by_cases hj : j < m.fields.length
  · have hfj : m.fields[j]? = some m.fields[j] := List.getElem?_eq_getElem hj
    rw [hclear, hfj]
    by_cases hext : m.fields[j].isExt
    · have hnone : lookupF j (nonExtWire m) = none := by
        rw [lookupF_eq_none_iff]
        intro f hf
        obtain ⟨hmem, hnoext⟩ := (mem_nonExtWire_iff m (j, f)).1 hf
        have := (mem_withIdx_iff _ _ _).1 hmem
        rw [hfj] at this
        injection this with hff
        have hne2 : m.fields[j].isExt = false := by
          rw [hff]
          exact hnoext
        rw [hext] at hne2
        simp at hne2
      rw [decodeFieldsLoop_not_found _ _ _ _ hnone, List.getElem?_map, hfj]
      simp [hext]
    · have hmem : (j, m.fields[j]) ∈ nonExtWire m :=
        (mem_nonExtWire_iff m (j, m.fields[j])).2
          ⟨(mem_withIdx_iff _ _ _).2 hfj, by simpa using hext⟩
      have hfound := lookupF_isSome_of_mem j m.fields[j] (nonExtWire m) hmem
      rw [decodeFieldsLoop_found v (nonExtWire m) hwtN _ hltN j hfound]
      simp [hext]
  · have hres : (decodeFieldsLoop (nonExtWire m) (encWire (nonExtWire m) v)
        (m.fields.map defaultValue)).length = m.fields.length := by
      rw [decodeFieldsLoop_length, List.length_map]
    rw [hclear, List.getElem?_eq_none (by omega : m.fields.length ≤ j),
      List.getElem?_eq_none (by rw [hres]; omega)]
    rfl

/-! ## Claim C1 -/

/-- C1: for every message schema (with its v1 payload nonempty, as every
actual message's is), every well-typed structured value and both protocol
versions, decoding the bytes produced by encoding the value returns the
value; in V1 the extension fields of the result are cleared to their zero
values. -/
theorem claim1_decode_encode_roundtrip (m : MessageDef) (v : List (List Nat)) (isV2 : Bool)
    (hwt : WellTyped m v) (hpos : 0 < sizeNormal m) :
    decodePayload m (encodePayload m v isV2) isV2 =
      Except.ok (if isV2 then v else clearExt m v) := by
  obtain ⟨hlen, hfields⟩ := hwt
  cases isV2 with
  | true =>
    have hwtW : ∀ p ∈ wireFields m, wellTypedF p.2 (v.getD p.1 []) :=
      fun p hp => hfields p ((mem_wireFields_iff m p).1 hp)
    have hfull : (fullEncode m v).length = sizeTotal m := encWire_length _ _ hwtW
    have htot : 0 < sizeTotal m := lt_of_lt_of_le hpos (sizeNormal_le_sizeTotal m)
    have hfne : fullEncode m v ≠ [] := by
      intro hnil
      rw [hnil] at hfull
      simp only [List.length_nil] at hfull
      omega
    have hppos : stripTZ (fullEncode m v) ≠ [] := by
      have hstp := stripTZ_length_pos _ hfne
      intro hnil
      rw [hnil] at hstp
      simp at hstp
    have hple : (stripTZ (fullEncode m v)).length ≤ sizeTotal m := by
      rw [← hfull]
      exact stripTZ_length_le _
    have henc : encodePayload m v true = stripTZ (fullEncode m v) := rfl
    rw [henc, decodePayload_ok_shape m _ true hppos (by simpa using hple)]
    show Except.ok (decodeFieldsLoop (wireFields m)
      (stripTZ (fullEncode m v) ++
        List.replicate (sizeTotal m - (stripTZ (fullEncode m v)).length) 0)
      (m.fields.map defaultValue)) = Except.ok v
    have hpad : stripTZ (fullEncode m v) ++
        List.replicate (sizeTotal m - (stripTZ (fullEncode m v)).length) 0 = fullEncode m v := by
      rw [← hfull]
      exact stripTZ_append_replicate _
    rw [hpad, decode_loop_full_recovers m v hlen hfields]
  | false =>
    have hwtN : ∀ p ∈ nonExtWire m, wellTypedF p.2 (v.getD p.1 []) :=
      fun p hp => hfields p ((mem_nonExtWire_iff m p).1 hp).1
    have hNlen : (encWire (nonExtWire m) v).length = sizeNormal m := encWire_length _ _ hwtN
    have hsplitfull : fullEncode m v = encWire (nonExtWire m) v ++ encWire (extWire m) v := by
      unfold fullEncode wireFields
      exact encWire_append _ _ v
    have htake : (fullEncode m v).take (sizeNormal m) = encWire (nonExtWire m) v := by
      rw [hsplitfull]
      exact List.take_left' hNlen
    have henc : encodePayload m v false = encWire (nonExtWire m) v := htake
    rw [henc]
    have hpne : encWire (nonExtWire m) v ≠ [] := by
      intro hnil
      rw [hnil] at hNlen
      simp only [List.length_nil] at hNlen
      omega
    rw [decodePayload_ok_shape m _ false hpne (by simpa using le_of_eq hNlen)]
    show Except.ok (decodeFieldsLoop (nonExtWire m)
      (encWire (nonExtWire m) v ++
        List.replicate (sizeNormal m - (encWire (nonExtWire m) v).length) 0)
      (m.fields.map defaultValue)) = Except.ok (clearExt m v)
    rw [hNlen, Nat.sub_self, List.replicate_zero, List.append_nil,
      decode_loop_nonext_recovers m v hlen hfields]

/-- Witness for C1: the round trip applied to the concrete HEARTBEAT test
value, at both versions. -/
theorem claim1_witness :
    decodePayload heartbeatDef (encodePayload heartbeatDef heartbeatVal false) false =
      Except.ok (clearExt heartbeatDef heartbeatVal) ∧
    decodePayload opticalFlowDef (encodePayload opticalFlowDef opticalFlowVal true) true =
      Except.ok opticalFlowVal :=
  ⟨claim1_decode_encode_roundtrip heartbeatDef heartbeatVal false (by decide) (by decide),
   claim1_decode_encode_roundtrip opticalFlowDef opticalFlowVal true (by decide) (by decide)⟩

/-! ## Claim C2 -/

set_option maxRecDepth 100000 in
/-- C2: the extra-CRC computation (canonical signature in sorted wire
order skipping extensions, CRC-16/MCRF4XX folded to one byte) yields the
pinned bytes 50, 124, 217, 167, 175, 187, 127 on the seven test-suite
message schemas. -/
theorem claim2_crc_extra_pinned :
    crcExtra heartbeatDef = 50 ∧ crcExtra sysStatusDef = 124 ∧
    crcExtra changeOperatorControlDef = 217 ∧ crcExtra attitudeQuaternionCovDef = 167 ∧
    crcExtra opticalFlowDef = 175 ∧ crcExtra playTuneDef = 187 ∧
    crcExtra ahrsDef = 127 := by
  refine ⟨?_, ?_, ?_, ?_, ?_, ?_, ?_⟩ <;> decide

/-! ## Claim C3 -/

set_option maxRecDepth 100000 in
set_option maxHeartbeats 2000000 in
/-- C3: v2 encoding is the full total payload with trailing zero bytes
stripped (a prefix whose removed suffix is all zeros, never empty when the
full payload is nonempty, and maximally stripped), v2 decoding of a
payload within the total size is insensitive to trailing zero bytes
(right-padding), and the AHRS test value realizes this: it encodes at V2
to the 20-byte vector obtained by stripping 8 trailing zeros from its
28-byte full payload, and that vector decodes back to the value. -/
theorem claim3_v2_truncation :
    (∀ (m : MessageDef) (v : List (List Nat)),
      encodePayload m v true ++
        List.replicate ((fullEncode m v).length - (encodePayload m v true).length) 0 =
        fullEncode m v) ∧
    (∀ (m : MessageDef) (v : List (List Nat)), fullEncode m v ≠ [] →
      encodePayload m v true ≠ []) ∧
    (∀ (m : MessageDef) (v : List (List Nat)), 1 < (encodePayload m v true).length →
      (encodePayload m v true).getLast? ≠ some 0) ∧
    (∀ (m : MessageDef) (p : List Nat) (k : Nat), p ≠ [] →
      p.length + k ≤ sizeTotal m →
      decodePayload m p true = decodePayload m (p ++ List.replicate k 0) true) ∧
    encodePayload ahrsDef ahrsVal true = ahrsBytesV2 ∧
    fullEncode ahrsDef ahrsVal = ahrsBytesV2 ++ List.replicate 8 0 ∧
    decodePayload ahrsDef ahrsBytesV2 true = Except.ok ahrsVal := by
  refine ⟨?_, ?_, ?_, ?_, by decide, by decide, by decide⟩
  · intro m v
    exact stripTZ_append_replicate (fullEncode m v)
  · intro m v hne hnil
    have hstp := stripTZ_length_pos _ hne
    rw [show encodePayload m v true = stripTZ (fullEncode m v) from rfl] at hnil
    rw [hnil] at hstp
    simp at hstp
  · intro m v hgt
    exact stripTZ_getLast_ne_zero (fullEncode m v) hgt
  · intro m p k hne hlen
    have hne2 : p ++ List.replicate k 0 ≠ [] := fun h => hne (List.append_eq_nil.1 h).1
    have hl1 : p.length ≤ sizeTotal m := by omega
    have hl2 : (p ++ List.replicate k 0).length ≤ sizeTotal m := by
      simp only [List.length_append, List.length_replicate]
      omega
    rw [decodePayload_ok_shape m p true hne (by exact hl1),
      decodePayload_ok_shape m _ true hne2 (by exact hl2)]
    have hbuf : p ++ List.replicate (sizeTotal m - p.length) 0 =
        (p ++ List.replicate k 0) ++
          List.replicate (sizeTotal m - (p ++ List.replicate k 0).length) 0 := by
      rw [List.append_assoc, ← List.replicate_add]
      congr 2
      simp only [List.length_append, List.length_replicate]
      omega
    rw [show (if (true : Bool) = true then sizeTotal m else sizeNormal m) = sizeTotal m
        from rfl,
      show (if (true : Bool) = true then wireFields m else nonExtWire m) = wireFields m
        from rfl,
      hbuf]

/-- Witness for C3: decoding the truncated 20-byte AHRS payload agrees
with decoding it re-padded by five zero bytes. -/
theorem claim3_witness :
    decodePayload ahrsDef ahrsBytesV2 true =
      decodePayload ahrsDef (ahrsBytesV2 ++ List.replicate 5 0) true :=
  claim3_v2_truncation.2.2.2.1 ahrsDef ahrsBytesV2 5 (by decide) (by decide)

/-! ## Claim C4 -/

/-- When a declared field at index `j` is an extension, the non-extension
wire list never mentions `j`. -/
theorem lookupF_nonExtWire_none_of_ext (m : MessageDef) (j : Nat) (f : FieldDef)
    (hfj : m.fields[j]? = some f) (hext : f.isExt = true) :
    lookupF j (nonExtWire m) = none := by
  rw [lookupF_eq_none_iff]
  intro g hg
  obtain ⟨hmem, hnoext⟩ := (mem_nonExtWire_iff m (j, g)).1 hg
  have hgj := (mem_withIdx_iff _ _ _).1 hmem
  rw [hfj] at hgj
  injection hgj with hgf
  rw [hgf] at hext
  rw [hext] at hnoext
  simp at hnoext

/-- Too-long decode shape. -/
theorem decodePayload_too_long (m : MessageDef) (p : List Nat) (isV2 : Bool)
    (hne : ¬p.length = 0) (hgt : (if isV2 then sizeTotal m else sizeNormal m) < p.length) :
    decodePayload m p isV2 = Except.error DecodeError.payloadTooLong := by
  simp only [decodePayload]
  rw [if_neg hne, if_pos hgt]

/-- C4: v1 encoding of a well-typed value is exactly the concatenated
non-extension field encodings (of the non-extension payload size, with
extensions absent); v1 decoding always leaves extension fields at their
default values; and the OPTICAL_FLOW test value realizes this: 26 bytes
at v1, the same bytes followed by the two IEEE-754 encodings of 1.0f at
v2, with the extension fields decoded as zero from the v1 bytes. -/
theorem claim4_v1_extensions :
    (∀ (m : MessageDef) (v : List (List Nat)), WellTyped m v →
      encodePayload m v false = encWire (nonExtWire m) v ∧
      (encodePayload m v false).length = sizeNormal m) ∧
    (∀ (m : MessageDef) (p : List Nat) (r : List (List Nat)),
      decodePayload m p false = Except.ok r →
      ∀ (j : Nat) (f : FieldDef), m.fields[j]? = some f → f.isExt = true →
        r[j]? = some (defaultValue f)) ∧
    encodePayload opticalFlowDef opticalFlowVal false = opticalFlowBytesV1 ∧
    encodePayload opticalFlowDef opticalFlowVal true = opticalFlowBytesV2 ∧
    opticalFlowBytesV2 = opticalFlowBytesV1 ++ [0, 0, 0x80, 0x3F, 0, 0, 0x80, 0x3F] ∧
    (encodePayload opticalFlowDef opticalFlowVal false).length = 26 ∧
    decodePayload opticalFlowDef opticalFlowBytesV1 false =
      Except.ok (opticalFlowVal.take 8 ++ [[0], [0]]) := by
  refine ⟨?_, ?_, by decide, by decide, by decide, by decide, by decide⟩
  · intro m v hwt
    obtain ⟨hlen, hfields⟩ := hwt
    have hwtN : ∀ p ∈ nonExtWire m, wellTypedF p.2 (v.getD p.1 []) :=
      fun p hp => hfields p ((mem_nonExtWire_iff m p).1 hp).1
    have hNlen : (encWire (nonExtWire m) v).length = sizeNormal m := encWire_length _ _ hwtN
    have hsplitfull : fullEncode m v = encWire (nonExtWire m) v ++ encWire (extWire m) v := by
      unfold fullEncode wireFields
      exact encWire_append _ _ v
    have htake : encodePayload m v false = encWire (nonExtWire m) v := by
      show (fullEncode m v).take (sizeNormal m) = _
      rw [hsplitfull]
      exact List.take_left' hNlen
    exact ⟨htake, by rw [htake, hNlen]⟩
  · intro m p r hdec j f hfj hext
    by_cases h0 : p.length = 0
    · rw [show decodePayload m p false = Except.error DecodeError.emptyPayload by
        simp only [decodePayload]; rw [if_pos h0]] at hdec
      exact Except.noConfusion hdec
    · by_cases h1 : sizeNormal m < p.length
      · rw [decodePayload_too_long m p false h0 (by exact h1)] at hdec
        exact Except.noConfusion hdec
      · have hne : p ≠ [] := fun h => h0 (by rw [h]; rfl)
        rw [decodePayload_ok_shape m p false hne
          (show p.length ≤ sizeNormal m by omega)] at hdec
        injection hdec with hr
        rw [← hr,
          show (if (false : Bool) = true then wireFields m else nonExtWire m) = nonExtWire m
            from rfl,
          decodeFieldsLoop_not_found _ _ _ _ (lookupF_nonExtWire_none_of_ext m j f hfj hext),
          List.getElem?_map, hfj]
        rfl

/-- Witness for C4: the first two conjuncts applied to the OPTICAL_FLOW
test data. -/
theorem claim4_witness :
    encodePayload opticalFlowDef opticalFlowVal false =
      encWire (nonExtWire opticalFlowDef) opticalFlowVal ∧
    (decodePayload opticalFlowDef opticalFlowBytesV1 false =
        Except.ok (opticalFlowVal.take 8 ++ [[0], [0]]) →
      (opticalFlowVal.take 8 ++ [[0], [0]])[9]? = some (defaultValue
        ⟨"FlowRateY", none, WireType.f32, 0, true⟩)) :=
  ⟨(claim4_v1_extensions.1 opticalFlowDef opticalFlowVal (by decide)).1,
   fun h => claim4_v1_extensions.2.1 opticalFlowDef opticalFlowBytesV1 _ h 9
     ⟨"FlowRateY", none, WireType.f32, 0, true⟩ (by decide) (by decide)⟩

/-! ## Claim C5 -/

/-- C5: the HEARTBEAT test value encodes at v1 to exactly
`06 00 00 00 01 02 03 04 05` (the 4-byte CustomMode field, declaration
index 3, sorted first on the wire before the five 1-byte fields), and
those bytes decode back to the value at v1. -/
theorem claim5_heartbeat_v1 :
    encodePayload heartbeatDef heartbeatVal false = heartbeatBytes ∧
    decodePayload heartbeatDef heartbeatBytes false = Except.ok heartbeatVal ∧
    (wireFields heartbeatDef).map (fun p => p.2.fname) =
      ["CustomMode", "Type", "Autopilot", "BaseMode", "SystemStatus", "MavlinkVersion"] ∧
    (wireFields heartbeatDef).map (fun p => p.1) = [3, 0, 1, 2, 4, 5] := by
  refine ⟨by decide, by decide, by decide, by decide⟩

/-! ## Claim C6 -/

/-- C6: the decoder fails only with `PayloadTooLong` (and only on inputs
longer than the expected size) or `EmptyPayload` (and only on the empty
input); in particular it never surfaces `UnsupportedField` on these
schemas' decode path, and a truncated (nonempty, within-size) v2 payload
always decodes successfully. -/
theorem claim6_decode_error_cases :
    (∀ (m : MessageDef) (p : List Nat) (isV2 : Bool) (e : DecodeError),
      decodePayload m p isV2 = Except.error e →
      (e = DecodeError.payloadTooLong ∧
        (if isV2 then sizeTotal m else sizeNormal m) < p.length) ∨
      (e = DecodeError.emptyPayload ∧ p = [])) ∧
    (∀ (m : MessageDef) (p : List Nat), p ≠ [] → p.length ≤ sizeTotal m →
      ∃ r, decodePayload m p true = Except.ok r) := by
  constructor
  · intro m p isV2 e hdec
    by_cases h0 : p.length = 0
    · right
      rw [show decodePayload m p isV2 = Except.error DecodeError.emptyPayload by
        simp only [decodePayload]; rw [if_pos h0]] at hdec
      injection hdec with he
      exact ⟨he.symm, List.length_eq_zero.1 h0⟩
    · by_cases h1 : (if isV2 then sizeTotal m else sizeNormal m) < p.length
      · left
        rw [decodePayload_too_long m p isV2 h0 h1] at hdec
        injection hdec with he
        exact ⟨he.symm, h1⟩
      · have hne : p ≠ [] := fun h => h0 (by rw [h]; rfl)
        rw [decodePayload_ok_shape m p isV2 hne (by omega)] at hdec
        exact Except.noConfusion hdec
  · intro m p hne hle
    exact ⟨_, decodePayload_ok_shape m p true hne (by simpa using hle)⟩

/-- Witness for C6: a one-byte AHRS payload (truncated v2) decodes
successfully, and an over-long HEARTBEAT payload yields exactly
`PayloadTooLong`. -/
theorem claim6_witness :
    (∃ r, decodePayload ahrsDef [1] true = Except.ok r) ∧
    ((decodePayload heartbeatDef (List.replicate 10 1) false =
        Except.error DecodeError.payloadTooLong) →
      DecodeError.payloadTooLong = DecodeError.payloadTooLong ∧
        sizeNormal heartbeatDef < (List.replicate 10 (1 : Nat)).length) :=
  ⟨claim6_decode_error_cases.2 ahrsDef [1] (by decide) (by decide),
   fun h => by
    have hcase := claim6_decode_error_cases.1 heartbeatDef (List.replicate 10 1) false
      DecodeError.payloadTooLong h
    rcases hcase with ⟨he, hlt⟩ | ⟨he, habs⟩
    · exact ⟨he, by simpa using hlt⟩
    · exact absurd habs (by decide)⟩

/-! ## Claims C7 to C10: the u24/u48 helpers -/

/-- Disjoint bitwise-or is addition: or-ing a multiple of `2 ^ k` with a
value below `2 ^ k`. -/
theorem or_eq_add_left (a b k : Nat) (hb : b < 2 ^ k) (ha : a % 2 ^ k = 0) :
    a ||| b = a + b := by
  have h0 := Nat.mod_add_div a (2 ^ k)
  rw [ha, Nat.zero_add] at h0
  rw [← h0, ← Nat.mul_add_lt_is_or hb _]

/-- C7: `uint24Encode` returns exactly the three low-order bytes of its
argument least-significant first (the little-endian encoding of
`x mod 2 ^ 24`), and `uint48Encode` the six low-order bytes likewise. -/
theorem claim7_uint_encode_low_bytes :
    (∀ x : Nat, x < 2 ^ 32 → uint24Encode x = natLE 3 (x % 2 ^ 24)) ∧
    (∀ x : Nat, x < 2 ^ 64 → uint48Encode x = natLE 6 (x % 2 ^ 48)) := by
  constructor
  · intro x _
    simp only [uint24Encode, natLE, Nat.shiftRight_eq_div_pow, List.cons.injEq, and_true]
    refine ⟨by omega, by omega, by omega⟩
  · intro x _
    simp only [uint48Encode, natLE, Nat.shiftRight_eq_div_pow, List.cons.injEq, and_true]
    refine ⟨by omega, by omega, by omega, by omega, by omega, by omega⟩

/-- Witness for C7 at concrete inputs. -/
theorem claim7_witness :
    uint24Encode 0x123456 = natLE 3 (0x123456 % 2 ^ 24) ∧
    uint48Encode 0xABCDEF012345 = natLE 6 (0xABCDEF012345 % 2 ^ 48) :=
  ⟨claim7_uint_encode_low_bytes.1 0x123456 (by decide),
   claim7_uint_encode_low_bytes.2 0xABCDEF012345 (by decide)⟩

/-- C8: both primitive codecs round-trip in both directions: decode after
encode is the identity below the compact width, and encode after decode
reproduces any byte sequence of the exact wire width. -/
theorem claim8_uint_roundtrips :
    (∀ x : Nat, x < 2 ^ 24 → uint24Decode (uint24Encode x) = some x) ∧
    (∀ b0 b1 b2 : Nat, b0 < 256 → b1 < 256 → b2 < 256 →
      ∃ v, uint24Decode [b0, b1, b2] = some v ∧ uint24Encode v = [b0, b1, b2]) ∧
    (∀ x : Nat, x < 2 ^ 48 → uint48Decode (uint48Encode x) = some x) ∧
    (∀ b0 b1 b2 b3 b4 b5 : Nat, b0 < 256 → b1 < 256 → b2 < 256 →
      b3 < 256 → b4 < 256 → b5 < 256 →
      ∃ v, uint48Decode [b0, b1, b2, b3, b4, b5] = some v ∧
        uint48Encode v = [b0, b1, b2, b3, b4, b5]) := by
  have h24 : ∀ b0 b1 b2 : Nat, b0 < 256 → b1 < 256 → b2 < 256 →
      uint24Decode [b0, b1, b2] = some (b2 * 2 ^ 16 + b1 * 2 ^ 8 + b0) := by
    intro b0 b1 b2 h0 h1 h2
    show some (((b2 <<< 16) ||| (b1 <<< 8)) ||| b0) = _
    rw [Nat.shiftLeft_eq, Nat.shiftLeft_eq,
      or_eq_add_left (b2 * 2 ^ 16) (b1 * 2 ^ 8) 16 (by omega) (by omega),
      or_eq_add_left (b2 * 2 ^ 16 + b1 * 2 ^ 8) b0 8 (by omega) (by omega)]
  have h48 : ∀ b0 b1 b2 b3 b4 b5 : Nat, b0 < 256 → b1 < 256 → b2 < 256 →
      b3 < 256 → b4 < 256 → b5 < 256 →
      uint48Decode [b0, b1, b2, b3, b4, b5] =
        some (b5 * 2 ^ 40 + b4 * 2 ^ 32 + b3 * 2 ^ 24 + b2 * 2 ^ 16 + b1 * 2 ^ 8 + b0) := by
    intro b0 b1 b2 b3 b4 b5 h0 h1 h2 h3 h4 h5
    show some ((((((b5 <<< 40) ||| (b4 <<< 32)) ||| (b3 <<< 24)) |||
      (b2 <<< 16)) ||| (b1 <<< 8)) ||| b0) = _
    rw [Nat.shiftLeft_eq, Nat.shiftLeft_eq, Nat.shiftLeft_eq, Nat.shiftLeft_eq,
      Nat.shiftLeft_eq,
      or_eq_add_left (b5 * 2 ^ 40) (b4 * 2 ^ 32) 40 (by omega) (by omega),
      or_eq_add_left (b5 * 2 ^ 40 + b4 * 2 ^ 32) (b3 * 2 ^ 24) 32 (by omega) (by omega),
      or_eq_add_left (b5 * 2 ^ 40 + b4 * 2 ^ 32 + b3 * 2 ^ 24) (b2 * 2 ^ 16) 24
        (by omega) (by omega),
      or_eq_add_left (b5 * 2 ^ 40 + b4 * 2 ^ 32 + b3 * 2 ^ 24 + b2 * 2 ^ 16) (b1 * 2 ^ 8) 16
        (by omega) (by omega),
      or_eq_add_left (b5 * 2 ^ 40 + b4 * 2 ^ 32 + b3 * 2 ^ 24 + b2 * 2 ^ 16 + b1 * 2 ^ 8) b0 8
        (by omega) (by omega)]
  refine ⟨?_, ?_, ?_, ?_⟩
  · intro x hx
    have := h24 (x % 256) ((x >>> 8) % 256) ((x >>> 16) % 256)
      (by omega) (by omega) (by omega)
    rw [show uint24Encode x = [x % 256, (x >>> 8) % 256, (x >>> 16) % 256] from rfl, this]
    simp only [Nat.shiftRight_eq_div_pow, Option.some.injEq]
    omega
  · intro b0 b1 b2 h0 h1 h2
    refine ⟨b2 * 2 ^ 16 + b1 * 2 ^ 8 + b0, h24 b0 b1 b2 h0 h1 h2, ?_⟩
    simp only [uint24Encode, Nat.shiftRight_eq_div_pow, List.cons.injEq, and_true]
    refine ⟨by omega, by omega, by omega⟩
  · intro x hx
    have := h48 (x % 256) ((x >>> 8) % 256) ((x >>> 16) % 256) ((x >>> 24) % 256)
      ((x >>> 32) % 256) ((x >>> 40) % 256)
      (by omega) (by omega) (by omega) (by omega) (by omega) (by omega)
    rw [show uint48Encode x = [x % 256, (x >>> 8) % 256, (x >>> 16) % 256,
      (x >>> 24) % 256, (x >>> 32) % 256, (x >>> 40) % 256] from rfl, this]
    simp only [Nat.shiftRight_eq_div_pow, Option.some.injEq]
    omega
  · intro b0 b1 b2 b3 b4 b5 h0 h1 h2 h3 h4 h5
    refine ⟨b5 * 2 ^ 40 + b4 * 2 ^ 32 + b3 * 2 ^ 24 + b2 * 2 ^ 16 + b1 * 2 ^ 8 + b0,
      h48 b0 b1 b2 b3 b4 b5 h0 h1 h2 h3 h4 h5, ?_⟩
    simp only [uint48Encode, Nat.shiftRight_eq_div_pow, List.cons.injEq, and_true]
    refine ⟨by omega, by omega, by omega, by omega, by omega, by omega⟩

/-- Witness for C8 at concrete inputs. -/
theorem claim8_witness :
    uint24Decode (uint24Encode 0x010203) = some 0x010203 ∧
    (∃ v, uint48Decode [1, 2, 3, 4, 5, 6] = some v ∧
      uint48Encode v = [1, 2, 3, 4, 5, 6]) :=
  ⟨claim8_uint_roundtrips.1 0x010203 (by decide),
   claim8_uint_roundtrips.2.2.2 1 2 3 4 5 6 (by decide) (by decide) (by decide)
     (by decide) (by decide) (by decide)⟩

theorem uint24Decode_cons (a b c : Nat) (rest : List Nat) :
    uint24Decode (a :: b :: c :: rest) = some (((c <<< 16) ||| (b <<< 8)) ||| a) := by
  simp [uint24Decode]

theorem uint48Decode_cons (a b c d e f : Nat) (rest : List Nat) :
    uint48Decode (a :: b :: c :: d :: e :: f :: rest) =
      some ((((((f <<< 40) ||| (e <<< 32)) ||| (d <<< 24)) |||
        (c <<< 16)) ||| (b <<< 8)) ||| a) := by
  simp [uint48Decode]

/-- C9: `uint24Decode` succeeds on every input of length at least 3,
reading only the first three bytes, and fails (the out-of-bounds branch)
on every shorter input; `uint48Decode` likewise with six bytes. -/
theorem claim9_uint_decode_totality :
    (∀ l : List Nat, 3 ≤ l.length →
      (uint24Decode l).isSome = true ∧ uint24Decode l = uint24Decode (l.take 3)) ∧
    (∀ l : List Nat, l.length < 3 → uint24Decode l = none) ∧
    (∀ l : List Nat, 6 ≤ l.length →
      (uint48Decode l).isSome = true ∧ uint48Decode l = uint48Decode (l.take 6)) ∧
    (∀ l : List Nat, l.length < 6 → uint48Decode l = none) := by
  refine ⟨?_, ?_, ?_, ?_⟩
  · intro l hl
    match l, hl with
    | a :: b :: c :: rest, _ =>
      refine ⟨?_, ?_⟩
      · rw [uint24Decode_cons]
        rfl
      · rw [uint24Decode_cons,
          show (a :: b :: c :: rest).take 3 = a :: b :: c :: ([] : List Nat) by simp,
          uint24Decode_cons]
  · intro l hl
    match l, hl with
    | [], _ => rfl
    | [a], _ => rfl
    | [a, b], _ => rfl
  · intro l hl
    match l, hl with
    | a :: b :: c :: d :: e :: f :: rest, _ =>
      refine ⟨?_, ?_⟩
      · rw [uint48Decode_cons]
        rfl
      · rw [uint48Decode_cons,
          show (a :: b :: c :: d :: e :: f :: rest).take 6 =
            a :: b :: c :: d :: e :: f :: ([] : List Nat) by simp,
          uint48Decode_cons]
  · intro l hl
    match l, hl with
    | [], _ => rfl
    | [a], _ => rfl
    | [a, b], _ => rfl
    | [a, b, c], _ => rfl
    | [a, b, c, d], _ => rfl
    | [a, b, c, d, e], _ => rfl

/-- Witness for C9 at concrete inputs. -/
theorem claim9_witness :
    ((uint24Decode [9, 9, 9, 9]).isSome = true ∧
      uint24Decode [9, 9, 9, 9] = uint24Decode [9, 9, 9]) ∧
    uint48Decode [1, 2, 3] = none :=
  ⟨claim9_uint_decode_totality.1 [9, 9, 9, 9] (by decide),
   claim9_uint_decode_totality.2.2.2 [1, 2, 3] (by decide)⟩

/-- C10: decoded u24/u48 values always fit the compact wire width, and
the encoders ignore bits above it. -/
theorem claim10_uint_bounds :
    (∀ (l : List Nat) (v : Nat), (∀ b ∈ l, b < 256) → uint24Decode l = some v →
      v < 2 ^ 24) ∧
    (∀ x : Nat, uint24Encode x = uint24Encode (x % 2 ^ 24)) ∧
    (∀ (l : List Nat) (v : Nat), (∀ b ∈ l, b < 256) → uint48Decode l = some v →
      v < 2 ^ 48) ∧
    (∀ x : Nat, uint48Encode x = uint48Encode (x % 2 ^ 48)) := by
  refine ⟨?_, ?_, ?_, ?_⟩
  · intro l v hb hdec
    match l, hdec with
    | a :: b :: c :: rest, hdec =>
      have ha : a < 256 := hb a (by simp)
      have hbb : b < 256 := hb b (by simp)
      have hc : c < 256 := hb c (by simp)
      have hv : v = ((c <<< 16) ||| (b <<< 8)) ||| a := by
        rw [uint24Decode_cons] at hdec
        injection hdec with h
        exact h.symm
      rw [hv]
      have h1 : c <<< 16 < 2 ^ 24 := by
        rw [Nat.shiftLeft_eq]
        omega
      have h2 : b <<< 8 < 2 ^ 24 := by
        rw [Nat.shiftLeft_eq]
        omega
      exact Nat.or_lt_two_pow (Nat.or_lt_two_pow h1 h2) (by omega)
  · intro x
    simp only [uint24Encode, Nat.shiftRight_eq_div_pow, List.cons.injEq, and_true]
    refine ⟨by omega, by omega, by omega⟩
  · intro l v hb hdec
    match l, hdec with
    | a :: b :: c :: d :: e :: f :: rest, hdec =>
      have ha : a < 256 := hb a (by simp)
      have hbb : b < 256 := hb b (by simp)
      have hc : c < 256 := hb c (by simp)
      have hd : d < 256 := hb d (by simp)
      have he : e < 256 := hb e (by simp)
      have hf : f < 256 := hb f (by simp)
      have hv : v = (((((f <<< 40) ||| (e <<< 32)) ||| (d <<< 24)) |||
          (c <<< 16)) ||| (b <<< 8)) ||| a := by
        rw [uint48Decode_cons] at hdec
        injection hdec with h
        exact h.symm
      rw [hv]
      have h5 : f <<< 40 < 2 ^ 48 := by
        rw [Nat.shiftLeft_eq]
        omega
      have h4 : e <<< 32 < 2 ^ 48 := by
        rw [Nat.shiftLeft_eq]
        omega
      have h3 : d <<< 24 < 2 ^ 48 := by
        rw [Nat.shiftLeft_eq]
        omega
      have h2 : c <<< 16 < 2 ^ 48 := by
        rw [Nat.shiftLeft_eq]
        omega
      have h1 : b <<< 8 < 2 ^ 48 := by
        rw [Nat.shiftLeft_eq]
        omega
      exact Nat.or_lt_two_pow (Nat.or_lt_two_pow (Nat.or_lt_two_pow
        (Nat.or_lt_two_pow (Nat.or_lt_two_pow h5 h4) h3) h2) h1) (by omega)
  · intro x
    simp only [uint48Encode, Nat.shiftRight_eq_div_pow, List.cons.injEq, and_true]
    refine ⟨by omega, by omega, by omega, by omega, by omega, by omega⟩

/-- Witness for C10 at concrete inputs. -/
theorem claim10_witness :
    ((uint24Decode [255, 255, 255] = some 0xFFFFFF → 0xFFFFFF < 2 ^ 24) ∧
      uint24Encode (2 ^ 30 + 5) = uint24Encode ((2 ^ 30 + 5) % 2 ^ 24)) ∧
    uint48Encode (2 ^ 60 + 7) = uint48Encode ((2 ^ 60 + 7) % 2 ^ 48) :=
  ⟨⟨fun h => claim10_uint_bounds.1 [255, 255, 255] 0xFFFFFF (by decide) h,
    claim10_uint_bounds.2.1 (2 ^ 30 + 5)⟩,
   claim10_uint_bounds.2.2.2 (2 ^ 60 + 7)⟩

end Gomavlib

